import Mathlib

/-!
Verification of the greyhound core (src/core/src/lib.rs): the reverse
index (RevIndex) construction, persistence and loading, counter
derivation, and the gather loop.

Hashes are 64-bit values used only for equality and membership, so they
are embedded as `Nat`; dataset identifiers (`usize` indices into the
manifest) likewise.  A `KmerMinHash` is embedded as its set of mins
(`Finset Nat`): the source only iterates, intersects and counts them.
The `HashMap<u64, HashSet<usize>>` of the source is embedded as the
finite set of its (hash, dataset id) pairs; the source never creates an
entry with an empty id set, so the two representations coincide.
-/

namespace Greyhound

abbrev MinHash : Type := Finset Nat

abbrev HashToIdx : Type := Finset (Nat × Nat)

/-- One sketch inside one signature record.  `compatible` is the result
of the template compatibility check performed by `select_sketch`
(all template fields equal); `mh` is the sketch's set of mins.  The
repository only ever builds MinHash templates, so every sketch a
compatible selection can return is a MinHash. -/
structure SketchRec where
  compatible : Bool
  mh : MinHash
deriving DecidableEq

/-- A signature file, as the list of its signature records, each record
holding its list of sketches.  `Signature::from_path` yields this list;
file I/O itself is the external codec. -/
abbrev SigFile : Type := List (List SketchRec)

/-- The call `sig.select_sketch(&template)` followed by the `Sketch::MinHash`
match: the first template-compatible sketch of one record. -/
def selectSketch (recs : List SketchRec) : Option MinHash :=
  (recs.find? (fun s => s.compatible)).map (fun s => s.mh)

/-- Reference-sketch loading as done at every reference site of the
source: `Signature::from_path(&filename)...[0]` takes the first record
only (build: index `[0]`; preload and match fetch: `swap_remove(0)`),
then the template-compatible sketch is selected and unwrapped.
`none` models the panic of the `unwrap` / the index-out-of-bounds. -/
def loadRefSketch (file : SigFile) : Option MinHash :=
  file.head?.bind selectSketch

/-- Modelled from the spec: `intersect(a, b) → (shared,
intersection_cardinality)` (§4.1); the sourmash `intersection` call is
an out-of-core collaborator.  Only the first component is ever inserted
into the map, so the second only feeds the retention guard. -/
def intersect (q mh : MinHash) : Finset Nat × Nat :=
  (q ∩ mh, (q ∩ mh).card)

/-- The per-dataset local map of `build_revindex`: the body of the
`filter_map` closure after the sketch has been unwrapped.  With
queries, each query is intersected and, under the guard
`!matched_hashes.is_empty() || intersection > threshold`, every shared
hash is inserted mapping to `{dataset_id}`; without queries the same
guard runs once on the full min set. -/
def datasetPairs (queries : Option (List MinHash)) (threshold : Nat)
    (dataset_id : Nat) (mh : MinHash) : HashToIdx :=
  match queries with
  | some qs =>
    qs.foldl (fun acc q =>
      let r := intersect q mh
      if ¬ r.1 = ∅ ∨ r.2 > threshold then
        acc ∪ r.1.image (fun h => (h, dataset_id))
      else acc) ∅
  | none =>
    if ¬ mh = ∅ ∨ mh.card > threshold then
      mh.image (fun h => (h, dataset_id))
    else ∅

/-- The enumerate / map / reduce of `build_revindex`: dataset ids are
positions in the manifest, local maps are merged by set union on
key collision (`entry.insert(id)`). -/
def buildPairs (queries : Option (List MinHash)) (threshold : Nat) :
    Nat → List (Option MinHash) → HashToIdx
  | _, [] => ∅
  | d, o :: rest =>
      datasetPairs queries threshold d (o.getD ∅) ∪
        buildPairs queries threshold (d + 1) rest

/-- Function `build_revindex`: each reference file is loaded, its first record's
template-compatible sketch unwrapped (a failure anywhere panics the
whole parallel build: `none`), the per-dataset maps merged.
References are given as (path, file contents) in manifest order. -/
def build_revindex (refs : List (String × SigFile)) (threshold : Nat)
    (queries : Option (List MinHash)) :
    Option (HashToIdx × List String) :=
  let loaded := refs.map (fun r => loadRefSketch r.2)
  if loaded.all (fun o => o.isSome) then
    some (buildPairs queries threshold 0 loaded, refs.map (fun r => r.1))
  else
    none

/-!  The counter.  `counter::Counter<usize>` is a map from dataset id
to count; a key decremented to zero stays present with count zero, so
the embedding is an association list (unique keys in every counter the
program builds), not a multiset. -/

abbrev Counter : Type := List (Nat × Nat)

/-- Modelled from the spec: `most_common()` orders entries by
descending count, ties broken by ascending key (§4.3), and the gather
loop takes element `[0]`.  (The ordering among equal counts lives in
the external counter crate, outside src/.)  The fold returns the entry
with maximal count, smallest id among ties. -/
def mostCommon : Counter → Option (Nat × Nat)
  | [] => none
  | e :: rest =>
      some (rest.foldl
        (fun p q => if q.2 > p.2 ∨ (q.2 = p.2 ∧ q.1 < p.1) then q else p) e)

/-- One hash's contribution to the subtraction step of the gather loop:
for every dataset id mapped by `hash_to_idx[hash]`,
`counter.entry(*dataset).and_modify(|e| if *e > 0 { *e -= 1 })`. -/
def decHash (h2i : HashToIdx) (h : Nat) (counter : Counter) : Counter :=
  counter.map (fun e => if (h, e.1) ∈ h2i ∧ e.2 > 0 then (e.1, e.2 - 1) else e)

/-- A multiset's elements in ascending order, through a structural
insertion sort (so that concrete instances reduce in the kernel). -/
def sortedKeys (m : Multiset Nat) : List Nat :=
  Quot.liftOn m (fun l => l.insertionSort (· ≤ ·)) (fun a b h =>
    List.eq_of_perm_of_sorted
      ((List.perm_insertionSort _ a).trans
        ((Quotient.exact (Quot.sound h)).trans
          (List.perm_insertionSort _ b).symm))
      (List.sorted_insertionSort _ a) (List.sorted_insertionSort _ b))

/-- The full subtraction step: `for hash in match_mh.iter_mins()`
(the mins of a sketch are iterated in ascending order). -/
def decrementAll (h2i : HashToIdx) (match_mh : MinHash) (counter : Counter) :
    Counter :=
  (sortedKeys match_mh.val).foldl (fun c h => decHash h2i h c) counter

/-- Removal, `counter.remove(&dataset_id)`: delete the key. -/
def removeKey (d : Nat) (counter : Counter) : Counter :=
  counter.filter (fun e => ¬ e.1 = d)

/-- The dataset-id occurrences collected by `build_counter`: one per
(hash, id) entry of `hash_to_idx` whose hash passes the query filter
(`filter_map` + `flatten` over the map); without a query, one per
entry of the whole map (`counter_all`). -/
def counterIds (h2i : HashToIdx) (query : Option MinHash) :
    Multiset Nat :=
  match query with
  | some q => (h2i.filter (fun p => p.1 ∈ q)).val.map Prod.snd
  | none => h2i.val.map Prod.snd

/-- Function `build_counter`: `collect()` the occurrences into a counter — the
count of each key is its number of occurrences, keys with no
occurrence are absent.  The association list is keyed in ascending
order: the underlying HashMap order is arbitrary and unobservable
through the counter operations. -/
def build_counter (h2i : HashToIdx) (query : Option MinHash) : Counter :=
  (sortedKeys (counterIds h2i query).dedup).map
    (fun d => (d, (counterIds h2i query).count d))

/-- The query filter of `load_revindex`: for each query in turn,
`retain` only the entries whose hash that query contains. -/
def loadFilter (queries : List MinHash) (h2i : HashToIdx) : HashToIdx :=
  queries.foldl (fun m q => m.filter (fun p => p.1 ∈ q)) h2i

/-- Modelled from the spec (§4.2.2): `load` with queries "build[s]
the union of query hashes as a filter set" and "retain[s] only keys of
`hash_to_idx` that appear in the filter" — a key survives iff it is in
at least one query.  Stated to compare the source's `loadFilter`
against the spec's words. -/
def loadFilterSpec (queries : List MinHash) (h2i : HashToIdx) : HashToIdx :=
  h2i.filter (fun p => p.1 ∈ queries.foldl (fun a q => a ∪ q) ∅)

/-- The characters after the last path separator: `Path::file_name`
for the simple relative paths the driver handles. -/
def lastComponent (cur : List Char) : List Char → List Char
  | [] => cur
  | c :: rest =>
      if c = '/' then lastComponent [] rest
      else lastComponent (cur ++ [c]) rest

/-- Modelled from the spec (§4.4): each query's match list is written
to `outdir/<query-basename>`; the source pushes
`queries_path[i].file_name()` — the final path component — onto
`outdir`. -/
def fileName (p : String) : String :=
  String.mk (lastComponent [] p.data)

def outputPath (outdir : String) (queryPath : String) : String :=
  outdir ++ "/" ++ fileName queryPath

/-- The `match_size` variable of the gather loop, initialised to
`usize::max_value()` (`none`) and holding the last selected count
thereafter; the loop guard compares it against the threshold. -/
def sizeGuard (matchSize : Option Nat) (threshold : Nat) : Bool :=
  match matchSize with
  | none => true
  | some m => decide (m > threshold)

/-- The gather loop of `gather` (src/core/src/lib.rs lines 313-353)
for one query, as a function of the match-fetch environment (which
returns the reference sketch for a dataset id; `none` models a load
panic).  Returns the selected dataset ids in order together with the
final counter.  Each iteration with `match_size > threshold` and a
non-empty counter: take `most_common()[0]`; if its count is below the
threshold, break; fetch the match sketch; record the match; decrement
the counter over the match's hashes; remove the selected key.  The
recursion is driven by a fuel argument; every iteration removes a
present key, so any fuel of at least the counter's length computes the
loop (theorem `gatherGo_fuel_irrel`), and `gatherMatches` supplies
exactly that. -/
def gatherGo (fetch : Nat → Option MinHash) (h2i : HashToIdx)
    (threshold : Nat) : Nat → Option Nat → Counter →
    Option (List Nat × Counter)
  | 0, _, counter => some ([], counter)
  | fuel + 1, matchSize, counter =>
    if sizeGuard matchSize threshold ∧ counter ≠ [] then
      match mostCommon counter with
      | none => some ([], counter)
      | some (dataset_id, size) =>
        if size ≥ threshold then
          match fetch dataset_id with
          | none => none
          | some match_mh =>
            (gatherGo fetch h2i threshold fuel (some size)
                (removeKey dataset_id (decrementAll h2i match_mh counter))).map
              (fun r => (dataset_id :: r.1, r.2))
        else some ([], counter)
    else some ([], counter)

/-- Entry into the loop: `let mut match_size = usize::max_value();`
then iterate; the counter length bounds the number of iterations. -/
def gatherMatches (fetch : Nat → Option MinHash) (h2i : HashToIdx)
    (threshold : Nat) (counter : Counter) :
    Option (List Nat × Counter) :=
  gatherGo fetch h2i threshold counter.length none counter

/-!  Persistence.  `index` writes the RevIndex with
`serde_json::to_writer` through a gzip stream; `load_revindex` reads
it back with `serde_json::from_reader`.  The gzip codec is the
out-of-core stream codec, so the persisted artifact is embedded at the
JSON level; u64 map keys are rendered in decimal, as serde_json prints
them. -/

inductive Json where
  | num : Nat → Json
  | str : String → Json
  | arr : List Json → Json
  | obj : List (String × Json) → Json

def digitChar (d : Nat) : Char :=
  match d with
  | 0 => '0' | 1 => '1' | 2 => '2' | 3 => '3' | 4 => '4'
  | 5 => '5' | 6 => '6' | 7 => '7' | 8 => '8' | _ => '9'

def charDigit (c : Char) : Option Nat :=
  if c = '0' then some 0 else if c = '1' then some 1
  else if c = '2' then some 2 else if c = '3' then some 3
  else if c = '4' then some 4 else if c = '5' then some 5
  else if c = '6' then some 6 else if c = '7' then some 7
  else if c = '8' then some 8 else if c = '9' then some 9
  else none

/-- Decimal rendering of a u64 map key. -/
def natKey (n : Nat) : String :=
  if n = 0 then "0"
  else String.mk (((Nat.digits 10 n).map digitChar).reverse)

def decodeDigits : List Char → Option (List Nat)
  | [] => some []
  | c :: rest =>
    match charDigit c with
    | some d => (decodeDigits rest).map (fun l => d :: l)
    | none => none

/-- Parse a decimal u64 map key back. -/
def parseNatKey (s : String) : Option Nat :=
  match s.data with
  | [] => none
  | l => (decodeDigits l.reverse).map (fun ds => Nat.ofDigits 10 ds)

def decodeIds : List Json → Option (List Nat)
  | [] => some []
  | Json.num d :: rest => (decodeIds rest).map (fun l => d :: l)
  | _ => none

def decodeStrs : List Json → Option (List String)
  | [] => some []
  | Json.str s :: rest => (decodeStrs rest).map (fun l => s :: l)
  | _ => none

/-- The keys of the map, ascending (the serializer of an unordered map
may emit entries in any order; the artifact must not depend on it, so
the embedding fixes the canonical ascending order). -/
def hashKeys (m : HashToIdx) : List Nat :=
  sortedKeys (m.image Prod.fst).val

/-- The id set of one key, ascending. -/
def idsOf (m : HashToIdx) (h : Nat) : List Nat :=
  sortedKeys ((m.filter (fun p => p.1 = h)).image Prod.snd).val

/-- The map `hash_to_idx` as serde_json writes it: a JSON object, one entry
per key, the value the array of its dataset ids. -/
def encodeHashToIdx (m : HashToIdx) : Json :=
  Json.obj ((hashKeys m).map
    (fun h => (natKey h, Json.arr ((idsOf m h).map Json.num))))

def decodeEntry (e : String × Json) : Option (List (Nat × Nat)) :=
  match parseNatKey e.1, e.2 with
  | some h, Json.arr ids => (decodeIds ids).map (fun l => l.map (fun d => (h, d)))
  | _, _ => none

def decodeEntries : List (String × Json) → Option (List (Nat × Nat))
  | [] => some []
  | e :: rest =>
    match decodeEntry e, decodeEntries rest with
    | some l, some ls => some (l ++ ls)
    | _, _ => none

def decodeHashToIdx : Json → Option HashToIdx
  | Json.obj entries => (decodeEntries entries).map (fun l => l.toFinset)
  | _ => none

/-- Saving, `serde_json::to_writer(wtr, &revindex)`: the derived serializer
writes an object with exactly the declared fields of `RevIndex` —
`hash_to_idx` and `sig_files` (src/core/src/lib.rs lines 18-22 declare
no other field). -/
def saveRevIndex (h2i : HashToIdx) (sig_files : List String) : Json :=
  Json.obj [("hash_to_idx", encodeHashToIdx h2i),
            ("sig_files", Json.arr (sig_files.map Json.str))]

/-- The derived deserializer: both fields must be present and
well-formed; any other shape is an `IndexLoading` failure. -/
def parseRevIndex : Json → Option (HashToIdx × List String)
  | Json.obj [(k1, v1), (k2, v2)] =>
    if k1 = "hash_to_idx" ∧ k2 = "sig_files" then
      match decodeHashToIdx v1, v2 with
      | some m, Json.arr files => (decodeStrs files).map (fun fs => (m, fs))
      | _, _ => none
    else none
  | _ => none

/-- Function `load_revindex`: read the stream back, then, when queries are
given, run the retain loop over them. -/
def load_revindex (stream : Json) (queries : Option (List MinHash)) :
    Option (HashToIdx × List String) :=
  (parseRevIndex stream).map (fun r =>
    match queries with
    | some qs => (loadFilter qs r.1, r.2)
    | none => r)

/-- The field names of a persisted record. -/
def objKeys : Json → List String
  | Json.obj entries => entries.map Prod.fst
  | _ => []

/-!  Concrete instances used in the claim checks. -/

/-- A match-fetch environment with two disjoint two-hash reference
sketches. -/
def exFetch : Nat → Option MinHash :=
  fun d => if d = 0 then some {1, 2} else if d = 1 then some {3, 4} else none

/-- The inverted index of those two references. -/
def exH2i : HashToIdx := {(1, 0), (2, 0), (3, 1), (4, 1)}

/-!  Helper lemmas. -/

theorem decHash_keys (h2i : HashToIdx) (h : Nat) (counter : Counter) :
    (decHash h2i h counter).map Prod.fst = counter.map Prod.fst := by
  induction counter with
  | nil => rfl
  | cons e rest ih =>
      simp only [decHash, List.map_cons] at ih ⊢
      refine congrArg₂ _ ?_ ih
      by_cases hc : (h, e.1) ∈ h2i ∧ e.2 > 0 <;> simp [hc]

theorem decrementAll_keys (h2i : HashToIdx) (mh : MinHash) (counter : Counter) :
    (decrementAll h2i mh counter).map Prod.fst = counter.map Prod.fst := by
  unfold decrementAll
  generalize sortedKeys mh.val = l
  induction l generalizing counter with
  | nil => rfl
  | cons h rest ih => simp [List.foldl_cons, ih, decHash_keys]

theorem mostCommon_foldl_mem (l : List (Nat × Nat)) (e : Nat × Nat) :
    l.foldl (fun p q => if q.2 > p.2 ∨ (q.2 = p.2 ∧ q.1 < p.1) then q else p) e
      ∈ e :: l := by
  induction l generalizing e with
  | nil => simp
  | cons x rest ih =>
      simp only [List.foldl_cons]
      rcases List.mem_cons.1
          (ih (if x.2 > e.2 ∨ (x.2 = e.2 ∧ x.1 < e.1) then x else e)) with hm | hm
      · rw [hm]
        by_cases hp : x.2 > e.2 ∨ (x.2 = e.2 ∧ x.1 < e.1) <;> simp [hp]
      · simp [List.mem_cons, hm]

theorem mostCommon_mem {counter : Counter} {p : Nat × Nat}
    (h : mostCommon counter = some p) : p ∈ counter := by
  cases counter with
  | nil => simp [mostCommon] at h
  | cons e rest =>
      simp only [mostCommon, Option.some.injEq] at h
      have := mostCommon_foldl_mem rest e
      rw [h] at this
      simpa using this

theorem decrementAll_length (h2i : HashToIdx) (mh : MinHash) (counter : Counter) :
    (decrementAll h2i mh counter).length = counter.length := by
  have := congrArg List.length (decrementAll_keys h2i mh counter)
  simpa using this

theorem removeKey_length_lt (counter : Counter) (d : Nat)
    (h : d ∈ counter.map Prod.fst) :
    (removeKey d counter).length < counter.length := by
  rcases List.mem_map.1 h with ⟨e, he, hfst⟩
  apply List.length_filter_lt_length_iff_exists.2
  exact ⟨e, he, by simp [hfst]⟩

theorem gatherGo_counter_shrinks {counter : Counter} {d : Nat} {c : Nat}
    (h2i : HashToIdx) (mh : MinHash)
    (hm : mostCommon counter = some (d, c)) :
    (removeKey d (decrementAll h2i mh counter)).length < counter.length := by
  have hmem : d ∈ counter.map Prod.fst :=
    List.mem_map.2 ⟨(d, c), mostCommon_mem hm, rfl⟩
  have h1 := removeKey_length_lt (decrementAll h2i mh counter) d
    (by rw [decrementAll_keys h2i mh counter]; exact hmem)
  exact (decrementAll_length h2i mh counter) ▸ h1

theorem gatherGo_stop (fetch : Nat → Option MinHash) (h2i : HashToIdx)
    (t fuel : Nat) (ms : Option Nat) (counter : Counter)
    (h : ¬ (sizeGuard ms t = true ∧ counter ≠ [])) :
    gatherGo fetch h2i t fuel ms counter = some ([], counter) := by
  cases fuel with
  | zero => rfl
  | succ f => simp only [gatherGo, if_neg h]

theorem gatherGo_stop_below (fetch : Nat → Option MinHash)
    (h2i : HashToIdx) (t fuel : Nat) (ms : Option Nat) (counter : Counter)
    (d : Nat) (c : Nat)
    (hm : mostCommon counter = some (d, c)) (hc : c < t) :
    gatherGo fetch h2i t (fuel + 1) ms counter = some ([], counter) := by
  by_cases hg : sizeGuard ms t = true ∧ counter ≠ []
  · simp only [gatherGo, if_pos hg, hm]
    rw [if_neg (by omega)]
  · exact gatherGo_stop fetch h2i t (fuel + 1) ms counter hg

theorem gatherGo_succ_step (fetch : Nat → Option MinHash)
    (h2i : HashToIdx) (t fuel : Nat) (ms : Option Nat) (counter : Counter)
    (d : Nat) (c : Nat) (mh : MinHash)
    (hg : sizeGuard ms t = true) (hm : mostCommon counter = some (d, c))
    (hc : c ≥ t) (hf : fetch d = some mh) :
    gatherGo fetch h2i t (fuel + 1) ms counter =
      (gatherGo fetch h2i t fuel (some c)
          (removeKey d (decrementAll h2i mh counter))).map
        (fun r => (d :: r.1, r.2)) := by
  have hne : counter ≠ [] := by
    intro h
    rw [h] at hm
    simp [mostCommon] at hm
  simp only [gatherGo, if_pos (And.intro hg hne), hm]
  rw [if_pos hc, hf]

theorem mostCommon_ne_none {counter : Counter} (h : counter ≠ []) :
    ∃ p, mostCommon counter = some p := by
  cases counter with
  | nil => exact absurd rfl h
  | cons e rest => exact ⟨_, rfl⟩

theorem gatherGo_succ_panic (fetch : Nat → Option MinHash)
    (h2i : HashToIdx) (t fuel : Nat) (ms : Option Nat) (counter : Counter)
    (d : Nat) (c : Nat)
    (hg : sizeGuard ms t = true) (hm : mostCommon counter = some (d, c))
    (hc : c ≥ t) (hf : fetch d = none) :
    gatherGo fetch h2i t (fuel + 1) ms counter = none := by
  have hne : counter ≠ [] := by
    intro h
    rw [h] at hm
    simp [mostCommon] at hm
  simp only [gatherGo, if_pos (And.intro hg hne), hm]
  rw [if_pos hc, hf]

theorem gatherGo_fuel_irrel (fetch : Nat → Option MinHash)
    (h2i : HashToIdx) (t : Nat) :
    ∀ n (counter : Counter), counter.length = n →
      ∀ fuel fuel' ms, n ≤ fuel → n ≤ fuel' →
        gatherGo fetch h2i t fuel ms counter =
          gatherGo fetch h2i t fuel' ms counter := by
  intro n
  induction n using Nat.strong_induction_on with
  | _ n ih =>
    intro counter hlen fuel fuel' ms hf hf'
    by_cases hg : sizeGuard ms t = true ∧ counter ≠ []
    · have hn : 0 < n := by
        rcases hg with ⟨-, hne⟩
        cases counter with
        | nil => exact absurd rfl hne
        | cons e rest => subst hlen; simp
      obtain ⟨f, rfl⟩ : ∃ f, fuel = f + 1 :=
        ⟨fuel - 1, by omega⟩
      obtain ⟨f', rfl⟩ : ∃ f', fuel' = f' + 1 :=
        ⟨fuel' - 1, by omega⟩
      cases hmc : mostCommon counter with
      | none => simp only [gatherGo, if_pos hg, hmc]
      | some p =>
        obtain ⟨d, c⟩ := p
        by_cases hct : c ≥ t
        · cases hfd : fetch d with
          | none =>
              simp only [gatherGo, if_pos hg, hmc]
              rw [if_pos hct, if_pos hct, hfd]
          | some mh =>
              rw [gatherGo_succ_step fetch h2i t f ms counter d c mh hg.1 hmc hct hfd,
                gatherGo_succ_step fetch h2i t f' ms counter d c mh hg.1 hmc hct hfd]
              have hsh := gatherGo_counter_shrinks h2i mh hmc
              rw [ih ((removeKey d (decrementAll h2i mh counter)).length)
                (by omega) _ rfl f f' (some c) (by omega) (by omega)]
        · rw [gatherGo_stop_below fetch h2i t f ms counter d c hmc (by omega),
            gatherGo_stop_below fetch h2i t f' ms counter d c hmc (by omega)]
    · rw [gatherGo_stop fetch h2i t fuel ms counter hg,
        gatherGo_stop fetch h2i t fuel' ms counter hg]

theorem gatherGo_length_le (fetch : Nat → Option MinHash)
    (h2i : HashToIdx) (t : Nat) :
    ∀ fuel (ms0 : Option Nat) (counter : Counter) ms cf,
      gatherGo fetch h2i t fuel ms0 counter = some (ms, cf) →
      ms.length ≤ fuel := by
  intro fuel
  induction fuel with
  | zero =>
      intro ms0 counter ms cf h
      simp only [gatherGo, Option.some.injEq, Prod.mk.injEq] at h
      simp [← h.1]
  | succ f ihf =>
      intro ms0 counter ms cf h
      by_cases hg : sizeGuard ms0 t = true ∧ counter ≠ []
      · obtain ⟨⟨d, c⟩, hmc⟩ := mostCommon_ne_none hg.2
        by_cases hct : c ≥ t
        · cases hfd : fetch d with
          | none =>
              rw [gatherGo_succ_panic fetch h2i t f ms0 counter d c
                hg.1 hmc hct hfd] at h
              exact absurd h (by simp)
          | some mh =>
              rw [gatherGo_succ_step fetch h2i t f ms0 counter d c mh
                hg.1 hmc hct hfd] at h
              rcases Option.map_eq_some'.1 h with ⟨r, hr, hrms⟩
              have hle := ihf (some c)
                (removeKey d (decrementAll h2i mh counter)) r.1 r.2
                (by rw [hr])
              have hms : ms = d :: r.1 := by
                have := congrArg Prod.fst hrms
                simpa using this.symm
              rw [hms]
              simpa using hle
        · rw [gatherGo_stop_below fetch h2i t f ms0 counter d c hmc
            (by omega)] at h
          simp only [Option.some.injEq, Prod.mk.injEq] at h
          simp [← h.1]
      · rw [gatherGo_stop fetch h2i t (f + 1) ms0 counter hg] at h
        simp only [Option.some.injEq, Prod.mk.injEq] at h
        simp [← h.1]

/-- At least as good for selection: higher count, or equal count and
key not larger. -/
def atLeast (r y : Nat × Nat) : Prop :=
  y.2 < r.2 ∨ (y.2 = r.2 ∧ r.1 ≤ y.1)

theorem atLeast_refl (r : Nat × Nat) : atLeast r r :=
  Or.inr ⟨rfl, le_refl _⟩

theorem atLeast_trans {r s y : Nat × Nat}
    (h1 : atLeast r s) (h2 : atLeast s y) : atLeast r y := by
  unfold atLeast at h1 h2 ⊢
  rcases h1 with h1 | h1 <;> rcases h2 with h2 | h2 <;> omega

theorem pick_atLeast (p q : Nat × Nat) :
    atLeast (if q.2 > p.2 ∨ (q.2 = p.2 ∧ q.1 < p.1) then q else p) p ∧
      atLeast (if q.2 > p.2 ∨ (q.2 = p.2 ∧ q.1 < p.1) then q else p) q := by
  by_cases hc : q.2 > p.2 ∨ (q.2 = p.2 ∧ q.1 < p.1)
  · rw [if_pos hc]
    unfold atLeast
    omega
  · rw [if_neg hc]
    unfold atLeast
    omega

theorem mostCommon_foldl_atLeast (l : List (Nat × Nat))
    (e : Nat × Nat) :
    ∀ y ∈ e :: l,
      atLeast (l.foldl
        (fun p q => if q.2 > p.2 ∨ (q.2 = p.2 ∧ q.1 < p.1) then q else p) e) y := by
  induction l generalizing e with
  | nil => simpa using atLeast_refl e
  | cons x rest ih =>
      intro y hy
      simp only [List.foldl_cons]
      rcases List.mem_cons.1 hy with rfl | hy
      · exact atLeast_trans
          (ih _ _ (List.mem_cons_self _ _)) (pick_atLeast y x).1
      · rcases List.mem_cons.1 hy with rfl | hy
        · exact atLeast_trans
            (ih _ _ (List.mem_cons_self _ _)) (pick_atLeast e y).2
        · exact ih _ _ (List.mem_cons_of_mem _ hy)

theorem mostCommon_best {counter : Counter} {d : Nat} {c : Nat}
    (hm : mostCommon counter = some (d, c)) :
    ∀ e ∈ counter, e.2 ≤ c ∧ (e.2 = c → d ≤ e.1) := by
  intro e he
  cases counter with
  | nil => simp at he
  | cons e0 rest =>
      simp only [mostCommon, Option.some.injEq] at hm
      have := mostCommon_foldl_atLeast rest e0 e (by
        rcases List.mem_cons.1 he with rfl | he
        · exact List.mem_cons_self _ _
        · exact List.mem_cons_of_mem _ he)
      rw [hm] at this
      rcases this with hlt | ⟨ha, hb⟩
      · exact ⟨by simpa using Nat.le_of_lt hlt, fun hec => by simp at hlt; omega⟩
      · exact ⟨by simp [ha], fun _ => by simpa using hb⟩

theorem mem_sortedKeys {m : Multiset Nat} {x : Nat} :
    x ∈ sortedKeys m ↔ x ∈ m := by
  induction m using Quot.inductionOn with
  | _ l =>
      show x ∈ l.insertionSort (· ≤ ·) ↔ _
      rw [(List.perm_insertionSort (· ≤ ·) l).mem_iff]
      simp

theorem mem_datasetPairs_none {t : Nat} {d0 : Nat} {mh : MinHash}
    {h : Nat} {d : Nat} :
    (h, d) ∈ datasetPairs none t d0 mh ↔ d = d0 ∧ h ∈ mh := by
  by_cases hmt : mh = (∅ : MinHash)
  · subst hmt
    simp [datasetPairs]
  · simp only [datasetPairs, if_pos (Or.inl hmt), Finset.mem_image]
    constructor
    · rintro ⟨x, hx, he⟩
      injection he with h1 h2
      subst h1
      subst h2
      exact ⟨rfl, hx⟩
    · rintro ⟨rfl, hx⟩
      exact ⟨h, hx, rfl⟩

theorem mem_datasetPairs_some_aux (t : Nat) (d0 : Nat) (mh : MinHash)
    (h : Nat) (d : Nat) (qs : List MinHash) :
    ∀ init : HashToIdx,
      ((h, d) ∈ qs.foldl (fun acc q =>
          let r := intersect q mh
          if ¬ r.1 = ∅ ∨ r.2 > t then acc ∪ r.1.image (fun x => (x, d0))
          else acc) init
        ↔ (h, d) ∈ init ∨ (d = d0 ∧ ∃ q ∈ qs, h ∈ q ∧ h ∈ mh)) := by
  induction qs with
  | nil => simp
  | cons q rest ih =>
      intro init
      simp only [List.foldl_cons]
      rw [ih]
      by_cases hg : ¬ (q ∩ mh) = ∅ ∨ (q ∩ mh).card > t
      · simp only [intersect, if_pos hg, Finset.mem_union, Finset.mem_image,
          Finset.mem_inter, List.mem_cons]
        constructor
        · rintro ((hin | ⟨x, ⟨hxq, hxm⟩, he⟩) | hrest)
          · exact Or.inl hin
          · injection he with h1 h2
            subst h1
            subst h2
            exact Or.inr ⟨rfl, q, Or.inl rfl, hxq, hxm⟩
          · obtain ⟨hd, q1, hq1, hh⟩ := hrest
            exact Or.inr ⟨hd, q1, Or.inr hq1, hh⟩
        · rintro (hin | ⟨rfl, q1, hq1 | hq1, hh⟩)
          · exact Or.inl (Or.inl hin)
          · subst hq1
            exact Or.inl (Or.inr ⟨h, ⟨hh.1, hh.2⟩, rfl⟩)
          · exact Or.inr ⟨rfl, q1, hq1, hh⟩
      · simp only [intersect, if_neg hg]
        push_neg at hg
        constructor
        · rintro (hin | ⟨rfl, q1, hq1, hh⟩)
          · exact Or.inl hin
          · exact Or.inr ⟨rfl, q1, List.mem_cons_of_mem _ hq1, hh⟩
        · rintro (hin | ⟨rfl, q1, hq1, hh⟩)
          · exact Or.inl hin
          · rcases List.mem_cons.1 hq1 with rfl | hq1
            · have : h ∈ q1 ∩ mh := Finset.mem_inter.2 ⟨hh.1, hh.2⟩
              rw [hg.1] at this
              simp at this
            · exact Or.inr ⟨rfl, q1, hq1, hh⟩

theorem mem_datasetPairs_some {qs : List MinHash} {t : Nat} {d0 : Nat}
    {mh : MinHash} {h : Nat} {d : Nat} :
    (h, d) ∈ datasetPairs (some qs) t d0 mh ↔
      d = d0 ∧ ∃ q ∈ qs, h ∈ q ∧ h ∈ mh := by
  have := mem_datasetPairs_some_aux t d0 mh h d qs (∅ : HashToIdx)
  simpa [datasetPairs] using this

theorem mem_datasetPairs_fst {queries : Option (List MinHash)} {t : Nat}
    {d0 : Nat} {mh : MinHash} {h : Nat} {d : Nat}
    (hx : (h, d) ∈ datasetPairs queries t d0 mh) : d = d0 := by
  cases queries with
  | none => exact (mem_datasetPairs_none.1 hx).1
  | some qs => exact (mem_datasetPairs_some.1 hx).1

theorem mem_buildPairs {queries : Option (List MinHash)} {t : Nat} :
    ∀ (d0 : Nat) (loaded : List (Option MinHash)) (h : Nat) (d : Nat),
      ((h, d) ∈ buildPairs queries t d0 loaded ↔
        ∃ i o, loaded[i]? = some o ∧
          (h, d) ∈ datasetPairs queries t (d0 + i) (o.getD ∅)) := by
  intro d0 loaded
  induction loaded generalizing d0 with
  | nil => simp [buildPairs]
  | cons o rest ih =>
      intro h d
      simp only [buildPairs, Finset.mem_union]
      rw [ih (d0 + 1)]
      constructor
      · rintro (hx | ⟨i, o1, hi, hx⟩)
        · exact ⟨0, o, by simp, by simpa using hx⟩
        · refine ⟨i + 1, o1, by simpa using hi, ?_⟩
          have : d0 + 1 + i = d0 + (i + 1) := by omega
          rwa [this] at hx
      · rintro ⟨i, o1, hi, hx⟩
        cases i with
        | zero =>
            left
            simp only [List.getElem?_cons_zero, Option.some.injEq] at hi
            subst hi
            simpa using hx
        | succ j =>
            right
            refine ⟨j, o1, by simpa using hi, ?_⟩
            have : d0 + (j + 1) = d0 + 1 + j := by omega
            rwa [this] at hx

theorem build_revindex_some {refs : List (String × SigFile)} {t : Nat}
    {queries : Option (List MinHash)} {h2i : HashToIdx} {files : List String}
    (hb : build_revindex refs t queries = some (h2i, files)) :
    h2i = buildPairs queries t 0 (refs.map (fun r => loadRefSketch r.2)) ∧
      files = refs.map (fun r => r.1) ∧
      ∀ x ∈ refs, (loadRefSketch x.2).isSome := by
  by_cases hall :
      (refs.map (fun r => loadRefSketch r.2)).all (fun o => o.isSome) = true
  · simp only [build_revindex, if_pos hall, Option.some.injEq,
      Prod.mk.injEq] at hb
    refine ⟨hb.1.symm, hb.2.symm, ?_⟩
    intro x hx
    have := List.all_eq_true.1 hall (loadRefSketch x.2)
      (List.mem_map.2 ⟨x, hx, rfl⟩)
    simpa using this
  · simp only [build_revindex, if_neg hall] at hb
    exact absurd hb (by simp)

theorem mem_build_revindex {refs : List (String × SigFile)} {t : Nat}
    {queries : Option (List MinHash)} {h2i : HashToIdx} {files : List String}
    (hb : build_revindex refs t queries = some (h2i, files))
    (h : Nat) (d : Nat) :
    (h, d) ∈ h2i ↔ ∃ pf mh, refs[d]? = some pf ∧
      loadRefSketch pf.2 = some mh ∧
      (h, d) ∈ datasetPairs queries t d mh := by
  obtain ⟨rfl, -, hsome⟩ := build_revindex_some hb
  rw [mem_buildPairs]
  constructor
  · rintro ⟨i, o, hi, hx⟩
    have hd : d = i := by simpa using mem_datasetPairs_fst hx
    subst hd
    rw [List.getElem?_map] at hi
    rcases Option.map_eq_some'.1 hi with ⟨pf, hpf, ho⟩
    have hpfm : pf ∈ refs := by
      have := List.getElem?_mem hpf
      exact this
    rcases Option.isSome_iff_exists.1 (hsome pf hpfm) with ⟨mh, hmh⟩
    refine ⟨pf, mh, hpf, hmh, ?_⟩
    have : o.getD ∅ = mh := by rw [← ho, hmh]; rfl
    simpa [this] using hx
  · rintro ⟨pf, mh, hpf, hmh, hx⟩
    refine ⟨d, some mh, ?_, by simpa using hx⟩
    rw [List.getElem?_map, hpf]
    simp [hmh]

theorem counterIds_count (h2i : HashToIdx) (q : MinHash) (d : Nat) :
    Multiset.count d (counterIds h2i (some q)) =
      (h2i.filter (fun p => d = p.2 ∧ p.1 ∈ q)).card := by
  simp only [counterIds]
  rw [Multiset.count_map, Finset.filter_val, Multiset.filter_filter]
  rfl

theorem filter_snd_eq_image_inter {refs : List (String × SigFile)} {t : Nat}
    {h2i : HashToIdx} {files : List String} {d : Nat} {pf : String × SigFile}
    {mh : MinHash} (q : MinHash)
    (hb : build_revindex refs t none = some (h2i, files))
    (hpf : refs[d]? = some pf) (hmh : loadRefSketch pf.2 = some mh) :
    h2i.filter (fun p => d = p.2 ∧ p.1 ∈ q) =
      (q ∩ mh).image (fun x => (x, d)) := by
  ext ⟨a, b⟩
  simp only [Finset.mem_filter, Finset.mem_image, Finset.mem_inter]
  constructor
  · rintro ⟨hab, hbd, haq⟩
    subst hbd
    rcases (mem_build_revindex hb a d).1 hab with ⟨pf1, mh1, hpf1, hmh1, hx⟩
    rw [hpf] at hpf1
    injection hpf1 with hpf1
    subst hpf1
    rw [hmh] at hmh1
    injection hmh1 with hmh1
    subst hmh1
    exact ⟨a, ⟨haq, (mem_datasetPairs_none.1 hx).2⟩, rfl⟩
  · rintro ⟨x, ⟨hxq, hxm⟩, he⟩
    injection he with h1 h2
    subst h1
    subst h2
    exact ⟨(mem_build_revindex hb x d).2
        ⟨pf, mh, hpf, hmh, mem_datasetPairs_none.2 ⟨rfl, hxm⟩⟩,
      rfl, hxq⟩

theorem build_counter_mem_count {h2i : HashToIdx} {query : Option MinHash}
    {d c : Nat} (h : (d, c) ∈ build_counter h2i query) :
    c = (counterIds h2i query).count d := by
  simp only [build_counter, List.mem_map] at h
  rcases h with ⟨k, hk, he⟩
  injection he with h1 h2
  subst h1
  exact h2.symm

theorem build_counter_mem_iff {h2i : HashToIdx} {query : Option MinHash}
    {d : Nat} :
    (∃ c, (d, c) ∈ build_counter h2i query) ↔ d ∈ counterIds h2i query := by
  simp only [build_counter, List.mem_map]
  constructor
  · rintro ⟨c, k, hk, he⟩
    injection he with h1 h2
    subst h1
    exact Multiset.mem_dedup.1 (mem_sortedKeys.1 hk)
  · intro hd
    exact ⟨_, d, mem_sortedKeys.2 (Multiset.mem_dedup.2 hd), rfl⟩

theorem charDigit_digitChar : ∀ d < 10, charDigit (digitChar d) = some d := by
  decide

theorem decodeDigits_map (l : List Nat) (hl : ∀ x ∈ l, x < 10) :
    decodeDigits (l.map digitChar) = some l := by
  induction l with
  | nil => rfl
  | cons x rest ih =>
      simp only [List.map_cons, decodeDigits,
        charDigit_digitChar x (hl x (List.mem_cons_self _ _)),
        ih (fun y hy => hl y (List.mem_cons_of_mem _ hy))]
      rfl

theorem parseNatKey_natKey (n : Nat) : parseNatKey (natKey n) = some n := by
  by_cases hn : n = 0
  · subst hn
    decide
  · have hne : Nat.digits 10 n ≠ [] := Nat.digits_ne_nil_iff_ne_zero.2 hn
    have hdata : (natKey n).data = ((Nat.digits 10 n).map digitChar).reverse := by
      simp [natKey, hn]
    have hrev : (natKey n).data.reverse = (Nat.digits 10 n).map digitChar := by
      rw [hdata, List.reverse_reverse]
    have hdec : decodeDigits ((natKey n).data.reverse) =
        some (Nat.digits 10 n) := by
      rw [hrev]
      exact decodeDigits_map _ (fun x hx =>
        Nat.digits_lt_base (by omega) hx)
    have hnonnil : (natKey n).data ≠ [] := by
      rw [hdata]
      simpa using hne
    unfold parseNatKey
    cases hd : (natKey n).data with
    | nil => exact absurd hd hnonnil
    | cons c cs =>
        rw [hd] at hdec
        simp only [hdec, Option.map_some']
        rw [Nat.ofDigits_digits]

theorem decodeIds_map (l : List Nat) : decodeIds (l.map Json.num) = some l := by
  induction l with
  | nil => rfl
  | cons x rest ih => simp [decodeIds, ih]

theorem decodeStrs_map (l : List String) :
    decodeStrs (l.map Json.str) = some l := by
  induction l with
  | nil => rfl
  | cons x rest ih => simp [decodeStrs, ih]

theorem decodeEntry_encode (m : HashToIdx) (h : Nat) :
    decodeEntry (natKey h, Json.arr ((idsOf m h).map Json.num)) =
      some ((idsOf m h).map (fun d => (h, d))) := by
  simp only [decodeEntry, parseNatKey_natKey, decodeIds_map]
  rfl

theorem decodeEntries_encode (m : HashToIdx) (keys : List Nat) :
    decodeEntries (keys.map
        (fun h => (natKey h, Json.arr ((idsOf m h).map Json.num)))) =
      some (keys.flatMap (fun h => (idsOf m h).map (fun d => (h, d)))) := by
  induction keys with
  | nil => rfl
  | cons k rest ih =>
      simp only [List.map_cons, decodeEntries, decodeEntry_encode, ih,
        List.flatMap_cons]

theorem mem_hashKeys {m : HashToIdx} {h : Nat} :
    h ∈ hashKeys m ↔ ∃ d, (h, d) ∈ m := by
  simp only [hashKeys, mem_sortedKeys, Finset.mem_val, Finset.mem_image]
  constructor
  · rintro ⟨⟨a, b⟩, hab, rfl⟩
    exact ⟨b, hab⟩
  · rintro ⟨d, hd⟩
    exact ⟨(h, d), hd, rfl⟩

theorem mem_idsOf {m : HashToIdx} {h d : Nat} :
    d ∈ idsOf m h ↔ (h, d) ∈ m := by
  simp only [idsOf, mem_sortedKeys, Finset.mem_val, Finset.mem_image,
    Finset.mem_filter]
  constructor
  · rintro ⟨⟨a, b⟩, ⟨hab, ha⟩, rfl⟩
    simp only at ha
    subst ha
    exact hab
  · intro hd
    exact ⟨(h, d), ⟨hd, rfl⟩, rfl⟩

theorem decodeHashToIdx_encode (m : HashToIdx) :
    decodeHashToIdx (encodeHashToIdx m) = some m := by
  simp only [encodeHashToIdx, decodeHashToIdx, decodeEntries_encode,
    Option.map_some', Option.some.injEq]
  ext ⟨a, b⟩
  simp only [List.mem_toFinset, List.mem_flatMap, List.mem_map]
  constructor
  · rintro ⟨h, hk, d, hd, he⟩
    injection he with h1 h2
    subst h1
    subst h2
    exact mem_idsOf.1 hd
  · intro hab
    exact ⟨a, mem_hashKeys.2 ⟨b, hab⟩, b, mem_idsOf.2 hab, rfl⟩

theorem parseRevIndex_save (m : HashToIdx) (files : List String) :
    parseRevIndex (saveRevIndex m files) = some (m, files) := by
  simp only [saveRevIndex, parseRevIndex, if_pos (And.intro rfl rfl),
    decodeHashToIdx_encode, decodeStrs_map]
  rfl

theorem build_none_of_load_fail (refs : List (String × SigFile)) (t : Nat)
    (queries : Option (List MinHash)) (i : Nat) (pf : String × SigFile)
    (hi : refs[i]? = some pf) (hload : loadRefSketch pf.2 = none) :
    build_revindex refs t queries = none := by
  by_cases hall :
      (refs.map (fun r => loadRefSketch r.2)).all (fun o => o.isSome) = true
  · exfalso
    have hmem : pf ∈ refs := List.getElem?_mem hi
    have := List.all_eq_true.1 hall (loadRefSketch pf.2)
      (List.mem_map.2 ⟨pf, hmem, rfl⟩)
    rw [hload] at this
    simp at this
  · simp only [build_revindex, if_neg hall]

theorem outputPath_fileName_eq {outdir p q : String}
    (h : outputPath outdir p = outputPath outdir q) :
    fileName p = fileName q := by
  have hd := congrArg String.data h
  simp only [outputPath] at hd
  have h2 : (outdir ++ "/").data ++ (fileName p).data =
      (outdir ++ "/").data ++ (fileName q).data := hd
  have h3 := List.append_cancel_left h2
  simp only [fileName]
  exact congrArg String.mk h3

/-!  The claims. -/

/-- C6 (amended): saving a RevIndex and loading it back with no query
filter restores the same `hash_to_idx` and the same `sig_files`.  The
serialized struct has no `template` (and no `ref_sigs`) field, so
neither is persisted — see the accompanying exhibit. -/
theorem save_load_roundtrip (m : HashToIdx) (files : List String) :
    load_revindex (saveRevIndex m files) none = some (m, files) := by
  simp only [load_revindex, parseRevIndex_save, Option.map_some']

/-- C6 exhibit: the persisted record of a concrete RevIndex carries
exactly the two declared struct fields, `hash_to_idx` and `sig_files`;
no `template` key is written, so loading cannot restore "the same
template" — the template is rebuilt from CLI parameters instead. -/
theorem save_has_no_template_ce :
    objKeys (saveRevIndex {(1, 0)} ["r0"]) = ["hash_to_idx", "sig_files"]
    ∧ ¬ "template" ∈ objKeys (saveRevIndex {(1, 0)} ["r0"]) := by
  exact ⟨rfl, by decide⟩

/-- C1 exhibit: `load_revindex` applies `retain` once per query, so a
key survives only if it lies in EVERY query's hash set — an
intersection filter.  With the stored map {1 ↦ {0}, 2 ↦ {1}} and the
two queries {1} and {2} the loaded map is empty, while the spec's
union filter (`loadFilterSpec`) keeps the whole map, exactly as the
query-filtered build does on the matching references; the sentence
"a key survives iff it is in at least one query" and property (P3)
both fail on the code. -/
theorem load_filter_intersection_bug :
    load_revindex (saveRevIndex {(1, 0), (2, 1)} ["r0", "r1"])
        (some [{1}, {2}]) = some (∅, ["r0", "r1"])
    ∧ loadFilterSpec [{1}, {2}] {(1, 0), (2, 1)} = {(1, 0), (2, 1)}
    ∧ ({(1, 0), (2, 1)} : HashToIdx) ≠ ∅
    ∧ build_revindex [("r0", [[⟨true, {1}⟩]]), ("r1", [[⟨true, {2}⟩]])] 0
        (some [{1}, {2}]) = some ({(1, 0), (2, 1)}, ["r0", "r1"]) := by
  refine ⟨?_, by decide, by decide, by decide⟩
  have hf : loadFilter [{1}, {2}] ({(1, 0), (2, 1)} : HashToIdx) = ∅ := by
    decide
  simp only [load_revindex, parseRevIndex_save, Option.map_some', hf]

/-- C4 counterexample: a manifest with one reference whose only
signature record has no template-compatible sketch.  The claim says
the build completes with the dataset silently skipped; the code's
`search_mh.unwrap()` panics instead, so no index is produced. -/
theorem build_incompatible_panics_ce :
    build_revindex [("r0", [[⟨false, {5}⟩]])] 0 none = none := by
  decide

/-- C4 (amended): a reference whose signature file yields no
template-compatible sketch in its first record makes the whole build
fail (the `unwrap` panics and the parallel build aborts): the build
does not complete and no `hash_to_idx` — with or without that
dataset — is produced. -/
theorem build_incompatible_fails (refs : List (String × SigFile)) (t : Nat)
    (queries : Option (List MinHash)) (i : Nat) (pf : String × SigFile)
    (hi : refs[i]? = some pf) (hload : loadRefSketch pf.2 = none) :
    build_revindex refs t queries = none :=
  build_none_of_load_fail refs t queries i pf hi hload

/-- C4 witness: the amended claim at the concrete one-reference
manifest. -/
theorem build_incompatible_fails_witness :
    ([(("r0" : String), ([[⟨false, {5}⟩]] : SigFile))][0]? =
        some ("r0", [[⟨false, {5}⟩]]))
    ∧ loadRefSketch [[⟨false, {5}⟩]] = none
    ∧ build_revindex [("r0", [[⟨false, {5}⟩]])] 3 none = none :=
  ⟨by decide, by decide,
    build_incompatible_fails [("r0", [[⟨false, {5}⟩]])] 3 none 0
      ("r0", [[⟨false, {5}⟩]]) (by decide) (by decide)⟩

/-- C10: every reference-signature load site (`build_revindex`,
preload, match fetch) goes through the first-record loader
`loadRefSketch`: files agreeing on their first record load
identically, so a compatible sketch appearing only in a later record
is never used; and a file whose first record has no compatible sketch
fails the build, even when a later record has one. -/
theorem only_first_record_consulted (f g : SigFile)
    (hfg : f.head? = g.head?)
    (refs : List (String × SigFile)) (t : Nat)
    (queries : Option (List MinHash)) (i : Nat) (pf : String × SigFile)
    (r : List SketchRec)
    (hi : refs[i]? = some pf) (hr : pf.2.head? = some r)
    (hnone : r.find? (fun s => s.compatible) = none) :
    loadRefSketch f = loadRefSketch g
    ∧ build_revindex refs t queries = none := by
  constructor
  · simp only [loadRefSketch, hfg]
  · refine build_none_of_load_fail refs t queries i pf hi ?_
    simp only [loadRefSketch, hr, Option.some_bind, selectSketch, hnone,
      Option.map_none']

/-- C10 witness: two files sharing the first record but differing in
the second load the same sketch, and a file whose compatible sketch
sits only in the second record fails the build. -/
theorem only_first_record_consulted_witness :
    (([[⟨false, {5}⟩], [⟨true, {7}⟩]] : SigFile).head? =
        ([[⟨false, {5}⟩], [⟨true, {9}⟩]] : SigFile).head?)
    ∧ ([(("r0" : String), ([[⟨false, {5}⟩], [⟨true, {7}⟩]] : SigFile))][0]? =
        some ("r0", [[⟨false, {5}⟩], [⟨true, {7}⟩]]))
    ∧ (([[⟨false, {5}⟩], [⟨true, {7}⟩]] : SigFile).head? =
        some [⟨false, {5}⟩])
    ∧ ([(⟨false, {5}⟩ : SketchRec)].find? (fun s => s.compatible) = none)
    ∧ (loadRefSketch [[⟨false, {5}⟩], [⟨true, {7}⟩]] =
        loadRefSketch [[⟨false, {5}⟩], [⟨true, {9}⟩]]
      ∧ build_revindex [("r0", [[⟨false, {5}⟩], [⟨true, {7}⟩]])] 0 none =
          none) :=
  ⟨by decide, by decide, by decide, by decide,
    only_first_record_consulted
      [[⟨false, {5}⟩], [⟨true, {7}⟩]] [[⟨false, {5}⟩], [⟨true, {9}⟩]]
      (by decide) [("r0", [[⟨false, {5}⟩], [⟨true, {7}⟩]])] 0 none 0
      ("r0", [[⟨false, {5}⟩], [⟨true, {7}⟩]]) [⟨false, {5}⟩]
      (by decide) (by decide) (by decide)⟩

/-- C8 counterexample: two distinct query paths with the same
basename are written to the same output file under `outdir`. -/
theorem output_path_collision_ce :
    outputPath "outputs" "a/q.sig" = outputPath "outputs" "b/q.sig"
    ∧ ("a/q.sig" : String) ≠ "b/q.sig" := by
  refine ⟨?_, by decide⟩
  decide

/-- C8 (amended): two queries get distinct output files exactly when
their basenames differ; distinct paths sharing a basename share one
output file. -/
theorem output_paths_distinct_basenames (outdir p q : String)
    (h : fileName p ≠ fileName q) :
    outputPath outdir p ≠ outputPath outdir q := by
  intro he
  exact h (outputPath_fileName_eq he)

/-- C8 witness: the amended claim at two basename-distinct paths. -/
theorem output_paths_distinct_basenames_witness :
    fileName "a/q1.sig" ≠ fileName "a/q2.sig"
    ∧ outputPath "outputs" "a/q1.sig" ≠ outputPath "outputs" "a/q2.sig" :=
  ⟨by decide, output_paths_distinct_basenames "outputs" "a/q1.sig" "a/q2.sig"
    (by decide)⟩

/-- C5: for an index built with no query filter (any threshold), the
counter derived for a query `q` holds, for each dataset `d`, exactly
`|q ∩ sketch(d)|` occurrences of `d`; every counter entry for `d`
carries that count, and `d` appears in the counter iff the
intersection is non-empty. -/
theorem counter_for_query_counts (refs : List (String × SigFile)) (t : Nat)
    (h2i : HashToIdx) (files : List String) (q mh : MinHash) (d : Nat)
    (pf : String × SigFile)
    (hb : build_revindex refs t none = some (h2i, files))
    (hpf : refs[d]? = some pf)
    (hmh : loadRefSketch pf.2 = some mh) :
    Multiset.count d (counterIds h2i (some q)) = (q ∩ mh).card
    ∧ (∀ c : Nat, (d, c) ∈ build_counter h2i (some q) → c = (q ∩ mh).card)
    ∧ ((∃ c, (d, c) ∈ build_counter h2i (some q)) ↔ (q ∩ mh).card ≠ 0) := by
  have hcount : Multiset.count d (counterIds h2i (some q)) = (q ∩ mh).card := by
    rw [counterIds_count, filter_snd_eq_image_inter q hb hpf hmh,
      Finset.card_image_of_injective _
        (fun a b hab => by
          have h1 : (a, d) = (b, d) := hab
          injection h1)]
  refine ⟨hcount, ?_, ?_⟩
  · intro c hc
    rw [build_counter_mem_count hc, hcount]
  · rw [build_counter_mem_iff]
    constructor
    · intro hd
      have hpos := Multiset.count_pos.2 hd
      omega
    · intro hne
      refine Multiset.count_pos.1 ?_
      omega

/-- C5 witness: one reference with sketch {1, 2}, query {1, 3}:
the counter holds dataset 0 with count 1 = |{1, 3} ∩ {1, 2}|. -/
theorem counter_for_query_counts_witness :
    build_revindex [("a", [[⟨true, {1, 2}⟩]])] 0 none =
        some ({(1, 0), (2, 0)}, ["a"])
    ∧ ([(("a" : String), ([[⟨true, {1, 2}⟩]] : SigFile))][0]? =
        some ("a", [[⟨true, {1, 2}⟩]]))
    ∧ loadRefSketch [[⟨true, {1, 2}⟩]] = some {1, 2}
    ∧ (Multiset.count 0 (counterIds {(1, 0), (2, 0)} (some {1, 3})) =
          (({1, 3} : MinHash) ∩ {1, 2}).card
      ∧ (∀ c : Nat, (0, c) ∈ build_counter {(1, 0), (2, 0)} (some {1, 3}) →
          c = (({1, 3} : MinHash) ∩ {1, 2}).card)
      ∧ ((∃ c, (0, c) ∈ build_counter {(1, 0), (2, 0)} (some {1, 3})) ↔
          (({1, 3} : MinHash) ∩ {1, 2}).card ≠ 0)) :=
  ⟨by decide, by decide, by decide,
    counter_for_query_counts [("a", [[⟨true, {1, 2}⟩]])] 0
      {(1, 0), (2, 0)} ["a"] {1, 3} {1, 2} 0 ("a", [[⟨true, {1, 2}⟩]])
      (by decide) (by decide) (by decide)⟩

/-- C7: in a query-filtered build with any threshold, the set of
hashes mapped to a dataset `d` (whose sketch loaded as `mh`) is
exactly `mh ∩ (union of the query hash sets)`: every per-query
intersection is retained in full regardless of the threshold, and no
hash outside every query is retained. -/
theorem build_query_filter_keeps_intersection
    (refs : List (String × SigFile)) (t : Nat) (qs : List MinHash)
    (h2i : HashToIdx) (files : List String) (d : Nat)
    (pf : String × SigFile) (mh : MinHash)
    (hb : build_revindex refs t (some qs) = some (h2i, files))
    (hpf : refs[d]? = some pf)
    (hmh : loadRefSketch pf.2 = some mh) :
    ∀ h : Nat, (h, d) ∈ h2i ↔ (h ∈ mh ∧ ∃ q ∈ qs, h ∈ q) := by
  intro h
  rw [mem_build_revindex hb h d]
  constructor
  · rintro ⟨pf1, mh1, hpf1, hmh1, hx⟩
    rw [hpf] at hpf1
    injection hpf1 with hpf1
    subst hpf1
    rw [hmh] at hmh1
    injection hmh1 with hmh1
    subst hmh1
    rcases mem_datasetPairs_some.1 hx with ⟨-, q1, hq1, hhq, hhm⟩
    exact ⟨hhm, q1, hq1, hhq⟩
  · rintro ⟨hhm, q1, hq1, hhq⟩
    exact ⟨pf, mh, hpf, hmh,
      mem_datasetPairs_some.2 ⟨rfl, q1, hq1, hhq, hhm⟩⟩

/-- C7 witness: sketch {1, 2, 3}, queries {1} and {2, 9}, threshold 5:
the dataset keeps exactly {1, 2} — each non-empty intersection in
full although both are smaller than the threshold — and nothing
outside the queries. -/
theorem build_query_filter_keeps_intersection_witness :
    build_revindex [("a", [[⟨true, {1, 2, 3}⟩]])] 5 (some [{1}, {2, 9}]) =
        some ({(1, 0), (2, 0)}, ["a"])
    ∧ ([(("a" : String), ([[⟨true, {1, 2, 3}⟩]] : SigFile))][0]? =
        some ("a", [[⟨true, {1, 2, 3}⟩]]))
    ∧ loadRefSketch [[⟨true, {1, 2, 3}⟩]] = some {1, 2, 3}
    ∧ (∀ h : Nat, (h, 0) ∈ ({(1, 0), (2, 0)} : HashToIdx) ↔
        (h ∈ ({1, 2, 3} : MinHash) ∧
          ∃ q ∈ [({1} : MinHash), {2, 9}], h ∈ q)) :=
  ⟨by decide, by decide, by decide,
    build_query_filter_keeps_intersection [("a", [[⟨true, {1, 2, 3}⟩]])] 5
      [{1}, {2, 9}] {(1, 0), (2, 0)} ["a"] 0 ("a", [[⟨true, {1, 2, 3}⟩]])
      {1, 2, 3} (by decide) (by decide) (by decide)⟩

/-- C2 counterexample: threshold 2, two datasets with disjoint hash
sets, both with count 2.  The first iteration selects dataset 0 with
count 2 (equal to the threshold); the loop then stops because its
guard is `match_size > threshold`, although the counter still holds
dataset 1 with count 2 ≥ threshold — so the loop terminates while the
counter is non-empty and its maximum count has not fallen below the
threshold, and dataset 1 is never emitted. -/
theorem gather_stops_at_threshold_ce :
    gatherMatches exFetch exH2i 2 [(0, 2), (1, 2)] = some ([0], [(1, 2)])
    ∧ mostCommon [(1, 2)] = some (1, 2) := by
  exact ⟨by decide, by decide⟩

/-- C2 (amended): in every executed iteration whose counter is
non-empty with maximum count ≥ threshold, that maximum is selected as
a match — including when its count equals the threshold exactly; but
after selecting a match whose count equals the threshold the loop
stops (the guard is `match_size > threshold`), so the loop terminates
when the counter is empty, when the maximum falls below the
threshold, or right after a threshold-equal selection. -/
theorem gather_loop_amended (fetch : Nat → Option MinHash)
    (h2i : HashToIdx) (t fuel : Nat) (ms0 : Option Nat) (counter : Counter)
    (d c : Nat) (mh : MinHash)
    (hg : sizeGuard ms0 t = true) (hm : mostCommon counter = some (d, c))
    (hc : c ≥ t) (hf : fetch d = some mh) :
    gatherGo fetch h2i t (fuel + 1) ms0 counter =
      (gatherGo fetch h2i t fuel (some c)
          (removeKey d (decrementAll h2i mh counter))).map
        (fun r => (d :: r.1, r.2))
    ∧ (c = t → gatherGo fetch h2i t fuel (some c)
          (removeKey d (decrementAll h2i mh counter)) =
        some ([], removeKey d (decrementAll h2i mh counter)))
    ∧ (∀ (ms1 : Option Nat) (c1 : Counter) (d1 cc1 fuel1 : Nat),
        mostCommon c1 = some (d1, cc1) → cc1 < t →
        gatherGo fetch h2i t (fuel1 + 1) ms1 c1 = some ([], c1)) := by
  refine ⟨gatherGo_succ_step fetch h2i t fuel ms0 counter d c mh hg hm hc hf,
    ?_, ?_⟩
  · intro hct
    apply gatherGo_stop
    subst hct
    simp [sizeGuard]
  · intro ms1 c1 d1 cc1 fuel1 hm1 hc1
    exact gatherGo_stop_below fetch h2i t fuel1 ms1 c1 d1 cc1 hm1 hc1

/-- C2 witness: the amended claim at the counterexample instance. -/
theorem gather_loop_amended_witness :
    sizeGuard none 2 = true
    ∧ mostCommon [(0, 2), (1, 2)] = some (0, 2)
    ∧ (2 : Nat) ≥ 2
    ∧ exFetch 0 = some {1, 2}
    ∧ (gatherGo exFetch exH2i 2 (1 + 1) none [(0, 2), (1, 2)] =
        (gatherGo exFetch exH2i 2 1 (some 2)
            (removeKey 0 (decrementAll exH2i {1, 2} [(0, 2), (1, 2)]))).map
          (fun r => (0 :: r.1, r.2))
      ∧ ((2 : Nat) = 2 → gatherGo exFetch exH2i 2 1 (some 2)
            (removeKey 0 (decrementAll exH2i {1, 2} [(0, 2), (1, 2)])) =
          some ([], removeKey 0 (decrementAll exH2i {1, 2} [(0, 2), (1, 2)])))
      ∧ (∀ (ms1 : Option Nat) (c1 : Counter) (d1 cc1 fuel1 : Nat),
          mostCommon c1 = some (d1, cc1) → cc1 < 2 →
          gatherGo exFetch exH2i 2 (fuel1 + 1) ms1 c1 = some ([], c1))) :=
  ⟨by decide, by decide, by decide, by decide,
    gather_loop_amended exFetch exH2i 2 1 none [(0, 2), (1, 2)] 0 2 {1, 2}
      (by decide) (by decide) (by decide) (by decide)⟩

/-- C3: the selected entry of each gather iteration is a counter entry
of maximum count, ties broken by the smallest dataset id; and the
per-query gather is a function of the index, the fetch environment,
the threshold and the counter, so two runs on equal inputs produce
identical match sequences. -/
theorem gather_selection_deterministic (counter : Counter) (d c : Nat)
    (hm : mostCommon counter = some (d, c)) :
    ((d, c) ∈ counter ∧ ∀ e ∈ counter, e.2 ≤ c ∧ (e.2 = c → d ≤ e.1))
    ∧ (∀ (fetch fetch' : Nat → Option MinHash) (h2i h2i' : HashToIdx)
        (t t' : Nat) (c0 c0' : Counter), fetch = fetch' → h2i = h2i' →
        t = t' → c0 = c0' →
        gatherMatches fetch h2i t c0 = gatherMatches fetch' h2i' t' c0') := by
  refine ⟨⟨mostCommon_mem hm, mostCommon_best hm⟩, ?_⟩
  rintro f f' a a' t t' c0 c0' rfl rfl rfl rfl
  rfl

/-- C3 witness: a counter with a tie on the maximal count 2 between
ids 3 and 1 — the selection is (1, 2), the smallest id. -/
theorem gather_selection_deterministic_witness :
    mostCommon [(3, 2), (1, 2)] = some (1, 2)
    ∧ (((1, 2) ∈ [(3, 2), (1, 2)]
        ∧ ∀ e ∈ [(3, 2), (1, 2)], e.2 ≤ 2 ∧ (e.2 = 2 → 1 ≤ e.1))
      ∧ (∀ (fetch fetch' : Nat → Option MinHash) (h2i h2i' : HashToIdx)
          (t t' : Nat) (c0 c0' : Counter), fetch = fetch' → h2i = h2i' →
          t = t' → c0 = c0' →
          gatherMatches fetch h2i t c0 = gatherMatches fetch' h2i' t' c0')) :=
  ⟨by decide, gather_selection_deterministic [(3, 2), (1, 2)] 1 2 (by decide)⟩

/-- C9: the gather loop terminates on every input: each iteration
removes the selected key, so the counter length strictly decreases;
consequently a run emits at most |counter| matches, and any fuel of at
least |counter| computes the same (limit) result, which is what
`gatherMatches` runs. -/
theorem gather_terminates_bounded (fetch : Nat → Option MinHash)
    (h2i : HashToIdx) (t : Nat) (counter : Counter) (d c : Nat)
    (mh : MinHash) (ms : List Nat) (cf : Counter)
    (hm : mostCommon counter = some (d, c))
    (hr : gatherMatches fetch h2i t counter = some (ms, cf)) :
    (removeKey d (decrementAll h2i mh counter)).length < counter.length
    ∧ ms.length ≤ counter.length
    ∧ (∀ fuel, counter.length ≤ fuel →
        gatherGo fetch h2i t fuel none counter =
          gatherMatches fetch h2i t counter) := by
  refine ⟨gatherGo_counter_shrinks h2i mh hm, ?_, ?_⟩
  · exact gatherGo_length_le fetch h2i t counter.length none counter ms cf hr
  · intro fuel hf
    exact gatherGo_fuel_irrel fetch h2i t counter.length counter rfl fuel
      counter.length none hf (le_refl _)

/-- C9 witness: the bound at the concrete two-entry counter. -/
theorem gather_terminates_bounded_witness :
    mostCommon [(0, 2), (1, 2)] = some (0, 2)
    ∧ gatherMatches exFetch exH2i 1 [(0, 2), (1, 2)] = some ([0, 1], [])
    ∧ ((removeKey 0 (decrementAll exH2i {1, 2} [(0, 2), (1, 2)])).length <
          ([(0, 2), (1, 2)] : Counter).length
      ∧ ([0, 1] : List Nat).length ≤ ([(0, 2), (1, 2)] : Counter).length
      ∧ (∀ fuel, ([(0, 2), (1, 2)] : Counter).length ≤ fuel →
          gatherGo exFetch exH2i 1 fuel none [(0, 2), (1, 2)] =
            gatherMatches exFetch exH2i 1 [(0, 2), (1, 2)])) :=
  ⟨by decide, by decide,
    gather_terminates_bounded exFetch exH2i 1 [(0, 2), (1, 2)] 0 2 {1, 2}
      [0, 1] [] (by decide) (by decide)⟩

end Greyhound
